import Mathlib

/-!
Shallow embedding of the lights-out solver (`src/main.rs`).

A `Board` is a rectangular grid of binary cells stored as one integer per
row (bit `x` of `rows[y]` is the cell at column `x`, row `y`); the row type
in the source is `u64` and scores are `usize`, both 64-bit, so arithmetic
that can wrap is taken modulo `2^64`.  All definitions below are
translated from the Rust source: `Board::clone_toggle`, `Board::score`,
`Board::end`, `Board::moves`, `SearchState::moves`, the `From` conversion,
and the `a_star` driver (with the Rust `BinaryHeap` modelled as a list
popped at a maximal-score element, and the `HashSet` of explored boards as
a duplicate-free list keyed on `rows`, matching the source's rows-only
`Hash`/`Eq` implementations).  The Rust loop has no fuel; the Lean loop
takes explicit fuel and we prove that a computable fuel bound always
suffices, which is the termination statement.
-/

/-- Modulus of the 64-bit unsigned arithmetic (`usize`/`u64` on the
64-bit target the source assumes). -/
def W64 : Nat := 2 ^ 64

/-- Wrapping subtraction on 64-bit unsigned integers, the release-mode
semantics of the `init_score - target_score` expression in
`Board::moves`. -/
def wrapSub (a b : Nat) : Nat := (a % W64 + (W64 - b % W64)) % W64

/-- The board: `width × height` binary cells, one integer per row
(from `struct Board`). -/
structure Board where
  width : Nat
  height : Nat
  rows : List Nat
  deriving DecidableEq, Repr

/-- `rows[i] ^= m`: xor the row at index `i` with mask `m` (out-of-range
index leaves the list unchanged; the source never indexes out of range). -/
def xorAt : List Nat → Nat → Nat → List Nat
  | [], _, _ => []
  | r :: rest, 0, m => (r ^^^ m) :: rest
  | r :: rest, i + 1, m => r :: xorAt rest i m

/-- `Board::new`: the all-off board. -/
def Board.new (width height : Nat) : Board :=
  { width := width, height := height, rows := (List.range height).map (fun _ => 0) }

/-- `Board::get`: cell at column `x`, row `y` is on. -/
def Board.get (b : Board) (x y : Nat) : Bool :=
  b.rows.getD y 0 &&& (1 <<< x) != 0

/-- `Board::clone_toggle`: flip the cell above (if any), the up-to-three
cells of row `y` centered on column `x` through the mask
`((7 << x) >> 1) & ((1 << width + 1) - 1)`, and the cell below (if any). -/
def Board.clone_toggle (b : Board) (x y : Nat) : Board :=
  let rows1 := if 0 < y then xorAt b.rows (y - 1) (1 <<< x) else b.rows
  let rows2 := xorAt rows1 y (((7 <<< x) >>> 1) &&& ((1 <<< (b.width + 1)) - 1))
  let rows3 := if y < b.height - 1 then xorAt rows2 (y + 1) (1 <<< x) else rows2
  { b with rows := rows3 }

/-- `<Board as Search>::score`: the number of off cells, counting bits
`0..width` of every row. -/
def Board.score (b : Board) : Nat :=
  (b.rows.map (fun row =>
    ((List.range b.width).map (fun x => if row &&& (1 <<< x) = 0 then 1 else 0)).sum)).sum

/-- `<Board as Search>::end`: all cells are off. -/
def Board.isEnd (b : Board) : Bool :=
  b.score == b.width * b.height

/-- The expected number of flipped cells used by the filter in
`Board::moves`: 3, plus 1 for a strictly interior column, plus 1 for a
strictly interior row (computed on the toggled board `bd`). -/
def targetScore (bd : Board) (x y : Nat) : Nat :=
  3 + (if 0 < x ∧ x < bd.width - 1 then 1 else 0)
    + (if 0 < y ∧ y < bd.height - 1 then 1 else 0)

/-- `<Board as Search>::moves`: for every column `x` and row `y`, the
toggled board, kept exactly when its score differs from
`init_score - target_score` (wrapping subtraction), labelled with the
move identifier `x * width + y`. -/
def Board.moves (b : Board) : List (Board × Nat) :=
  ((List.range b.width).map (fun x =>
    ((((List.range b.height).map (fun y => (b.clone_toggle x y, x, y))).filter
      (fun t => t.1.score != wrapSub b.score (targetScore t.1 t.2.1 t.2.2))).map
      (fun t => (t.1, t.2.1 * b.width + t.2.2))))).flatten

/-- `struct SearchState`, specialised to the `Board` puzzle
(`Score = usize`). -/
structure SearchState where
  history : List Nat
  latest : Board
  latest_move_index : Option Nat
  score : Nat
  deriving DecidableEq, Repr

/-- `impl From<T> for SearchState<T>`: wrap a bare puzzle value with
empty history and no originating move. -/
def SearchState.ofBoard (b : Board) : SearchState :=
  { history := [], latest := b, latest_move_index := none, score := b.score }

/-- `SearchState::moves`: the child states; the parent's own originating
move index (if present) is appended to the history handed to every
child. -/
def SearchState.moves (s : SearchState) : List SearchState :=
  let new_history := s.history ++
    (match s.latest_move_index with
     | some index => [index]
     | none => [])
  s.latest.moves.map (fun p =>
    { history := new_history, latest := p.1, latest_move_index := some p.2,
      score := p.1.score })

/-- Membership of a board in the explored set: the source's `HashSet`
keys boards by their rows-only `Hash`/`Eq` implementations. -/
def containsBoard (l : List Board) (b : Board) : Bool :=
  l.any (fun b2 => b2.rows == b.rows)

/-- `HashSet::insert` on the explored set: no-op when an equal (same
rows) board is already present, so the list length is the set's
cardinality (`explored.len()`). -/
def insertBoard (l : List Board) (b : Board) : List Board :=
  if containsBoard l b then l else b :: l

/-- `impl PartialEq for Board`: equality compares only `rows`. -/
def boardEq (b1 b2 : Board) : Bool :=
  b1.rows == b2.rows

/-- `BinaryHeap::pop`: remove a search state of maximal `score` (the
`Ord` on `SearchState` compares the cached score only; ties are broken
arbitrarily in the source, here by taking the leftmost maximum). -/
def popMax : List SearchState → Option (SearchState × List SearchState)
  | [] => none
  | s :: rest =>
    match popMax rest with
    | none => some (s, [])
    | some (m, rest2) =>
      if s.score < m.score then some (m, s :: rest2) else some (s, rest)

/-- The mutable state of the `a_star` loop: the explored set and the
fringe. -/
structure SearchCfg where
  explored : List Board
  fringe : List SearchState
  deriving DecidableEq, Repr

/-- One iteration of the `a_star` loop.  `Sum.inl` is the loop's return
(the optional solution together with the explored set whose length is
`explored.len()`); `Sum.inr` is the continuing configuration. -/
def searchStep (max_depth : Nat) (cfg : SearchCfg) :
    (Option SearchState × List Board) ⊕ SearchCfg :=
  match popMax cfg.fringe with
  | none => Sum.inl (none, cfg.explored)
  | some (state, rest) =>
    if state.latest.isEnd then Sum.inl (some state, cfg.explored)
    else if state.history.length < max_depth then
      Sum.inr { explored := insertBoard cfg.explored state.latest,
                fringe := (state.moves.filter
                  (fun ns => !containsBoard (insertBoard cfg.explored state.latest)
                    ns.latest)) ++ rest }
    else Sum.inr { explored := cfg.explored, fringe := rest }

/-- The `a_star` loop, with explicit fuel (the Rust loop is unfueled;
`aStarLoop_completes` below shows the fuel bound used by `a_star` always
suffices). -/
def aStarLoop (max_depth : Nat) : Nat → SearchCfg → Option (Option SearchState × List Board)
  | 0, _ => none
  | fuel + 1, cfg =>
    match searchStep max_depth cfg with
    | Sum.inl r => some r
    | Sum.inr cfg2 => aStarLoop max_depth fuel cfg2

/-- The initial configuration of `a_star`: empty explored set, fringe
holding the wrapped initial state. -/
def initCfg (b : Board) : SearchCfg :=
  { explored := [], fringe := [SearchState.ofBoard b] }

/-- Size of the complete `B`-ary tree of depth `d`; used as the fuel
bound for the search loop. -/
def treeB (B : Nat) : Nat → Nat
  | 0 => 1
  | d + 1 => 1 + B * treeB B d

/-- The effective depth of a search state: its history length, plus one
when it carries an originating move index (children always have exactly
the parent's effective depth plus one). -/
def nuDepth (s : SearchState) : Nat :=
  s.history.length +
    (match s.latest_move_index with
     | some _ => 1
     | none => 0)

/-- Termination measure of a single fringe element. -/
def muMeasure (D : Nat) (s : SearchState) : Nat :=
  treeB (s.latest.width * s.latest.height) (D + 1 - nuDepth s)

/-- Termination measure of a configuration: sum over the fringe. -/
def cfgMeasure (D : Nat) (cfg : SearchCfg) : Nat :=
  (cfg.fringe.map (muMeasure D)).sum

/-- `fn a_star`: run the loop from the initial configuration with a fuel
bound large enough to cover the whole depth-bounded search tree. -/
def a_star (b : Board) (max_depth : Nat) : Option (Option SearchState × List Board) :=
  aStarLoop max_depth (treeB (b.width * b.height) (max_depth + 1) + 1) (initCfg b)

/-- One replay step of `main`: among the current board's legal moves,
find the first whose identifier equals the recorded index
(`find(|(_, i)| *i == move_id)`); `none` models the `panic!`. -/
def replayStep (b : Board) (move_id : Nat) : Option Board :=
  (b.moves.find? (fun p => p.2 == move_id)).map Prod.fst

/-- The replay loop of `main`: apply the recorded move identifiers in
order, returning the last board reached. -/
def replay (b : Board) : List Nat → Option Board
  | [] => some b
  | i :: rest =>
    match replayStep b i with
    | none => none
    | some b2 => replay b2 rest

/-- The 1-by-1 board whose single cell is on. -/
def board11 : Board := { width := 1, height := 1, rows := [1] }

/-- The search state returned by `a_star board11 d` for `d ≥ 1`: the
solved board has the ghost bit at position 1 set (rows `[2]`), the
history is empty, and the final move index is only recorded in
`latest_move_index`. -/
def c1solved : SearchState :=
  { history := [], latest := { width := 1, height := 1, rows := [2] },
    latest_move_index := some 0, score := 1 }

theorem xorAt_xorAt_cancel (l : List Nat) (i m : Nat) : xorAt (xorAt l i m) i m = l := by
  induction l generalizing i with
  | nil => rfl
  | cons r rest ih =>
    cases i with
    | zero => simp [xorAt, Nat.xor_cancel_right]
    | succ j => simp [xorAt, ih]

theorem xorAt_comm (l : List Nat) (i j mi mj : Nat) (h : i ≠ j) :
    xorAt (xorAt l i mi) j mj = xorAt (xorAt l j mj) i mi := by
  induction l generalizing i j with
  | nil => rfl
  | cons r rest ih =>
    cases i with
    | zero =>
      cases j with
      | zero => exact absurd rfl h
      | succ jj => rfl
    | succ ii =>
      cases j with
      | zero => rfl
      | succ jj =>
        simp only [xorAt, List.cons.injEq, true_and]
        exact ih ii jj (by omega)

theorem xorAt_all {P : Nat → Prop} (l : List Nat) (i m : Nat)
    (hl : ∀ r ∈ l, P r) (hstep : ∀ r, P r → P (r ^^^ m)) :
    ∀ r ∈ xorAt l i m, P r := by
  induction l generalizing i with
  | nil => intro r hr; cases hr
  | cons a rest ih =>
    cases i with
    | zero =>
      intro r hr
      cases hr with
      | head => exact hstep a (hl a (List.mem_cons_self a rest))
      | tail _ hr2 => exact hl r (List.mem_cons_of_mem a hr2)
    | succ j =>
      intro r hr
      cases hr with
      | head => exact hl a (List.mem_cons_self a rest)
      | tail _ hr2 => exact ih j (fun r2 hm2 => hl r2 (List.mem_cons_of_mem a hm2)) r hr2

/-- Claim C6: applying the same toggle twice at an in-range origin
restores the original board exactly (the toggle transition is an
involution). -/
theorem c6_toggle_involution (b : Board) (x y : Nat) (hx : x < b.width)
    (hy : y < b.height) : (b.clone_toggle x y).clone_toggle x y = b := by
  obtain ⟨w, h, rows⟩ := b
  simp only [Board.clone_toggle, Board.mk.injEq, true_and]
  by_cases h1 : 0 < y <;> by_cases h2 : y < h - 1 <;>
    simp only [h1, h2, if_true, if_false, ite_true, ite_false]
  · rw [xorAt_comm _ (y + 1) (y - 1) _ _ (by omega),
      xorAt_comm _ y (y - 1) _ _ (by omega), xorAt_xorAt_cancel,
      xorAt_comm _ (y + 1) y _ _ (by omega), xorAt_xorAt_cancel,
      xorAt_xorAt_cancel]
  · rw [xorAt_comm _ y (y - 1) _ _ (by omega), xorAt_xorAt_cancel,
      xorAt_xorAt_cancel]
  · rw [xorAt_comm _ (y + 1) y _ _ (by omega), xorAt_xorAt_cancel,
      xorAt_xorAt_cancel]
  · rw [xorAt_xorAt_cancel]

theorem c6_toggle_involution_witness :
    (board11.clone_toggle 0 0).clone_toggle 0 0 = board11 :=
  c6_toggle_involution board11 0 0 (by decide) (by decide)

/-- Claim C4 (counterexample): the 1-by-1 board with its cell on has all
rows below `2^width`, yet toggling at the in-range origin `(0, 0)` yields
a row (`2`) that is not below `2^width`: the row mask flips the ghost bit
at position `width`. -/
theorem c4_counterexample :
    (∀ r ∈ board11.rows, r < 2 ^ board11.width) ∧
    ¬ (∀ r ∈ (board11.clone_toggle 0 0).rows, r < 2 ^ board11.width) := by
  decide

/-- Claim C4 (amended): the toggle transition flips bits only at
positions at most `width` (the row mask is truncated to `width + 1` bits
and the vertical flips are at the in-range column `x`), so every row of
the resulting board is below `2^(width+1)`; the stronger bound
`2^width` is not preserved. -/
theorem c4_rows_bound (b : Board) (x y : Nat) (hx : x < b.width)
    (hb : ∀ r ∈ b.rows, r < 2 ^ (b.width + 1)) :
    ∀ r ∈ (b.clone_toggle x y).rows, r < 2 ^ (b.width + 1) := by
  have hx1 : (1 <<< x) < 2 ^ (b.width + 1) := by
    rw [Nat.shiftLeft_eq, one_mul]
    exact Nat.pow_lt_pow_right (by omega) (by omega)
  have hm : ((7 <<< x) >>> 1) &&& ((1 <<< (b.width + 1)) - 1) < 2 ^ (b.width + 1) := by
    have h1 : ((7 <<< x) >>> 1) &&& ((1 <<< (b.width + 1)) - 1) ≤ (1 <<< (b.width + 1)) - 1 :=
      Nat.and_le_right
    have h2 : (1 : Nat) <<< (b.width + 1) = 2 ^ (b.width + 1) := by
      rw [Nat.shiftLeft_eq, one_mul]
    have h3 : (0 : Nat) < 2 ^ (b.width + 1) := Nat.pos_pow_of_pos _ (by omega)
    omega
  have key : ∀ (l : List Nat) (i m : Nat), m < 2 ^ (b.width + 1) →
      (∀ r ∈ l, r < 2 ^ (b.width + 1)) → ∀ r ∈ xorAt l i m, r < 2 ^ (b.width + 1) :=
    fun l i m hmlt hl => xorAt_all l i m hl (fun r hrP => Nat.xor_lt_two_pow hrP hmlt)
  have step1 : ∀ r ∈ (if 0 < y then xorAt b.rows (y - 1) (1 <<< x) else b.rows),
      r < 2 ^ (b.width + 1) := by
    split
    · exact key _ _ _ hx1 hb
    · exact hb
  have step2 := key _ y _ hm step1
  simp only [Board.clone_toggle]
  split
  · exact key _ _ _ hx1 step2
  · exact step2

theorem c4_rows_bound_witness : (2 : Nat) < 2 ^ (board11.width + 1) :=
  c4_rows_bound board11 0 0 (by decide) (by decide) 2 (by decide)

theorem moves_mem_iff (b : Board) (p : Board × Nat) :
    p ∈ b.moves ↔ ∃ x, x < b.width ∧ ∃ y, y < b.height ∧
      p = (b.clone_toggle x y, x * b.width + y) ∧
      (b.clone_toggle x y).score ≠
        wrapSub b.score (targetScore (b.clone_toggle x y) x y) := by
  constructor
  · intro hp
    rw [Board.moves, List.mem_flatten] at hp
    obtain ⟨l, hl, hpl⟩ := hp
    rw [List.mem_map] at hl
    obtain ⟨x, hx, rfl⟩ := hl
    rw [List.mem_range] at hx
    rw [List.mem_map] at hpl
    obtain ⟨t, ht, rfl⟩ := hpl
    rw [List.mem_filter] at ht
    obtain ⟨htm, htf⟩ := ht
    rw [List.mem_map] at htm
    obtain ⟨y, hy, rfl⟩ := htm
    rw [List.mem_range] at hy
    refine ⟨x, hx, y, hy, rfl, ?_⟩
    simpa using htf
  · rintro ⟨x, hx, y, hy, rfl, hne⟩
    rw [Board.moves, List.mem_flatten]
    refine ⟨_, List.mem_map_of_mem _ (List.mem_range.2 hx), ?_⟩
    refine List.mem_map.2 ⟨(b.clone_toggle x y, x, y), ?_, rfl⟩
    rw [List.mem_filter]
    exact ⟨List.mem_map_of_mem _ (List.mem_range.2 hy), by simpa using hne⟩

/-- Claim C2 (counterexample): on the 1-by-1 board with its cell on, the
candidate at the only origin `(0, 0)` is accepted into `moves` although
its actual score change is `+1`, which differs from the geometric
expected flip count `3` in both directions: acceptance is not "actual
change equals the expectation". -/
theorem c2_counterexample :
    (Board.mk 1 1 [2], 0) ∈ board11.moves ∧
    targetScore (board11.clone_toggle 0 0) 0 0 = 3 ∧
    Board.score (Board.mk 1 1 [2]) = Board.score board11 + 1 ∧
    Board.score (Board.mk 1 1 [2]) ≠ Board.score board11 + 3 ∧
    Board.score board11 ≠ Board.score (Board.mk 1 1 [2]) + 3 := by
  decide

/-- Claim C2 (amended): a candidate at origin `(x, y)` is accepted into
`moves` exactly when the toggled board's score differs from
`init_score - target_score`, the wrapping 64-bit subtraction of the
geometric expected flip count from the initial score; i.e. a candidate
is discarded exactly when it lowers the score by exactly the expected
flip count. -/
theorem c2_move_filter (b : Board) (p : Board × Nat) :
    p ∈ b.moves ↔ ∃ x, x < b.width ∧ ∃ y, y < b.height ∧
      p = (b.clone_toggle x y, x * b.width + y) ∧
      (b.clone_toggle x y).score ≠
        wrapSub b.score (targetScore (b.clone_toggle x y) x y) :=
  moves_mem_iff b p

/-- The 2-by-3 all-on board used to exhibit the move-identifier
collision. -/
def board23 : Board := { width := 2, height := 3, rows := [3, 3, 3] }

/-- Claim C8: on the 2-by-3 all-on board the moves at origins `(0, 2)`
and `(1, 0)` are both enumerated, produce different boards, and carry
the same identifier `2`; replay's `find?` on identifier `2` selects the
`(0, 2)` move, so identifier-based replay can pick a different move than
the recorded one. -/
theorem c8_id_collision :
    (board23.clone_toggle 0 2, 2) ∈ board23.moves ∧
    (board23.clone_toggle 1 0, 2) ∈ board23.moves ∧
    (board23.clone_toggle 0 2).rows = [3, 2, 0] ∧
    (board23.clone_toggle 1 0).rows = [4, 1, 3] ∧
    board23.clone_toggle 0 2 ≠ board23.clone_toggle 1 0 ∧
    0 * board23.width + 2 = 1 * board23.width + 0 ∧
    board23.moves.find? (fun p => p.2 == 2) = some (board23.clone_toggle 0 2, 2) := by
  decide

/-- Claim C9: the filter's `init_score - target_score` is an unguarded
64-bit unsigned subtraction: it agrees with mathematical subtraction
exactly when the expected flip count is at most the score, and the
1-by-1 all-on board violates that precondition at its only candidate
(score `0` is below the expected flip count `3`). -/
theorem c9_underflow :
    (∀ a b : Nat, a < W64 → b < W64 →
      (((wrapSub a b : Nat) : Int) = (a : Int) - (b : Int) ↔ b ≤ a)) ∧
    Board.score board11 < targetScore (board11.clone_toggle 0 0) 0 0 ∧
    targetScore (board11.clone_toggle 0 0) 0 0 = 3 := by
  refine ⟨?_, by decide, by decide⟩
  intro a b ha hb
  simp only [wrapSub, W64] at ha hb ⊢
  have h64 : (2 : Nat) ^ 64 = 18446744073709551616 := by norm_num
  rw [h64] at ha hb ⊢
  omega

theorem c9_underflow_witness :
    ((wrapSub 5 3 : Nat) : Int) = (5 : Int) - (3 : Int) ↔ (3 : Nat) ≤ 5 :=
  c9_underflow.1 5 3 (by decide) (by decide)

/-- A 3-wide board with row value 5. -/
def board315 : Board := { width := 3, height := 1, rows := [5] }

/-- A board with the same rows as `board315` but different declared
width and height. -/
def board425 : Board := { width := 4, height := 2, rows := [5] }

/-- The 1-by-1 board whose row is 3: it agrees with `board11` on the
single in-range cell but differs at the out-of-range bit 1. -/
def board113 : Board := { width := 1, height := 1, rows := [3] }

/-- Claim C10: board equality is defined solely over the raw row
integers: boards with equal rows compare equal even with different
declared dimensions, boards agreeing on every in-range cell but
differing at bits at or beyond the width compare unequal, and
explored-set membership is keyed on raw row values. -/
theorem c10_rows_only_equality :
    (∀ b1 b2 : Board, boardEq b1 b2 = true ↔ b1.rows = b2.rows) ∧
    boardEq board315 board425 = true ∧
    (∀ x y : Nat, x < board11.width → y < board11.height →
      board11.get x y = board113.get x y) ∧
    boardEq board11 board113 = false ∧
    (∀ (l : List Board) (b : Board),
      containsBoard l b = true ↔ ∃ b2, b2 ∈ l ∧ b2.rows = b.rows) := by
  refine ⟨?_, by decide, ?_, by decide, ?_⟩
  · intro b1 b2
    simp [boardEq]
  · intro x y hx hy
    have hx1 : x = 0 := by
      have : x < 1 := hx
      omega
    have hy1 : y = 0 := by
      have : y < 1 := hy
      omega
    subst hx1
    subst hy1
    decide
  · intro l b
    simp [containsBoard, List.any_eq_true]

theorem c10_rows_only_equality_witness : board11.get 0 0 = board113.get 0 0 :=
  c10_rows_only_equality.2.2.1 0 0 (by decide) (by decide)

theorem popMax_none_iff (l : List SearchState) : popMax l = none ↔ l = [] := by
  cases l with
  | nil => simp [popMax]
  | cons s rest =>
    simp only [popMax]
    cases h : popMax rest with
    | none => simp
    | some p =>
      obtain ⟨m, rest2⟩ := p
      by_cases hc : s.score < m.score <;> simp [hc]

theorem popMax_cons_none (a : SearchState) (tail : List SearchState)
    (h : popMax tail = none) : popMax (a :: tail) = some (a, []) := by
  rw [popMax, h]

theorem popMax_cons_lt (a : SearchState) (tail : List SearchState)
    (m : SearchState) (rest2 : List SearchState)
    (h : popMax tail = some (m, rest2)) (hc : a.score < m.score) :
    popMax (a :: tail) = some (m, a :: rest2) := by
  rw [popMax, h]
  simp [hc]

theorem popMax_cons_ge (a : SearchState) (tail : List SearchState)
    (m : SearchState) (rest2 : List SearchState)
    (h : popMax tail = some (m, rest2)) (hc : ¬ a.score < m.score) :
    popMax (a :: tail) = some (a, tail) := by
  rw [popMax, h]
  simp [hc]

theorem popMax_perm (l : List SearchState) (s : SearchState)
    (rest : List SearchState) (h : popMax l = some (s, rest)) :
    l.Perm (s :: rest) := by
  induction l generalizing s rest with
  | nil => simp [popMax] at h
  | cons a tail ih =>
    cases htail : popMax tail with
    | none =>
      rw [popMax_cons_none a tail htail] at h
      simp only [Option.some.injEq, Prod.mk.injEq] at h
      obtain ⟨rfl, rfl⟩ := h
      have he : tail = [] := (popMax_none_iff tail).1 htail
      subst he
      exact List.Perm.refl _
    | some p =>
      obtain ⟨m, rest2⟩ := p
      by_cases hc : a.score < m.score
      · rw [popMax_cons_lt a tail m rest2 htail hc] at h
        simp only [Option.some.injEq, Prod.mk.injEq] at h
        obtain ⟨rfl, rfl⟩ := h
        exact ((ih _ _ htail).cons a).trans (List.Perm.swap _ a rest2)
      · rw [popMax_cons_ge a tail m rest2 htail hc] at h
        simp only [Option.some.injEq, Prod.mk.injEq] at h
        obtain ⟨rfl, rfl⟩ := h
        exact List.Perm.refl _

theorem searchStep_pop_none (D : Nat) (cfg : SearchCfg)
    (h : popMax cfg.fringe = none) :
    searchStep D cfg = Sum.inl (none, cfg.explored) := by
  rw [searchStep, h]

theorem searchStep_pop_end (D : Nat) (cfg : SearchCfg) (s : SearchState)
    (rest : List SearchState) (hpop : popMax cfg.fringe = some (s, rest))
    (hend : s.latest.isEnd = true) :
    searchStep D cfg = Sum.inl (some s, cfg.explored) := by
  rw [searchStep, hpop]
  simp [hend]

theorem searchStep_pop_expand (D : Nat) (cfg : SearchCfg) (s : SearchState)
    (rest : List SearchState) (hpop : popMax cfg.fringe = some (s, rest))
    (hend : s.latest.isEnd = false) (hdepth : s.history.length < D) :
    searchStep D cfg = Sum.inr
      { explored := insertBoard cfg.explored s.latest,
        fringe := (s.moves.filter
          (fun ns => !containsBoard (insertBoard cfg.explored s.latest)
            ns.latest)) ++ rest } := by
  rw [searchStep, hpop]
  simp [hend, hdepth]

theorem searchStep_pop_drop (D : Nat) (cfg : SearchCfg) (s : SearchState)
    (rest : List SearchState) (hpop : popMax cfg.fringe = some (s, rest))
    (hend : s.latest.isEnd = false) (hdepth : ¬ s.history.length < D) :
    searchStep D cfg = Sum.inr { explored := cfg.explored, fringe := rest } := by
  rw [searchStep, hpop]
  simp [hend, hdepth]

theorem treeB_pos (B d : Nat) : 1 ≤ treeB B d := by
  cases d with
  | zero => simp [treeB]
  | succ k =>
    simp only [treeB]
    omega

theorem moves_length_le (b : Board) : b.moves.length ≤ b.width * b.height := by
  rw [Board.moves, List.length_flatten]
  have hbound : ∀ n ∈ ((List.range b.width).map (fun x =>
      ((((List.range b.height).map (fun y => (b.clone_toggle x y, x, y))).filter
        (fun t => t.1.score != wrapSub b.score (targetScore t.1 t.2.1 t.2.2))).map
        (fun t => (t.1, t.2.1 * b.width + t.2.2))))).map List.length,
      n ≤ b.height := by
    intro n hn
    rw [List.mem_map] at hn
    obtain ⟨l, hl, rfl⟩ := hn
    rw [List.mem_map] at hl
    obtain ⟨x, hx, rfl⟩ := hl
    rw [List.length_map]
    exact le_trans (List.length_filter_le _ _) (by simp)
  have hsum := List.sum_le_card_nsmul _ b.height hbound
  simp only [List.length_map, List.length_range, smul_eq_mul] at hsum
  exact hsum

theorem searchState_moves_length (s : SearchState) :
    s.moves.length = s.latest.moves.length := by
  simp [SearchState.moves]

theorem searchState_moves_mem (s c : SearchState) (hc : c ∈ s.moves) :
    nuDepth c = nuDepth s + 1 ∧ c.latest.width = s.latest.width ∧
      c.latest.height = s.latest.height := by
  rw [SearchState.moves, List.mem_map] at hc
  obtain ⟨p, hp, rfl⟩ := hc
  rw [moves_mem_iff] at hp
  obtain ⟨x, hx, y, hy, rfl, hne⟩ := hp
  refine ⟨?_, rfl, rfl⟩
  cases hidx : s.latest_move_index <;>
    simp [nuDepth, hidx, List.length_append, Nat.add_comm, Nat.add_assoc]

theorem step_measure (D : Nat) (cfg cfg2 : SearchCfg)
    (h : searchStep D cfg = Sum.inr cfg2) :
    cfgMeasure D cfg2 < cfgMeasure D cfg := by
  cases hpop : popMax cfg.fringe with
  | none =>
    rw [searchStep_pop_none D cfg hpop] at h
    exact absurd h (by simp)
  | some pr =>
    obtain ⟨s, rest⟩ := pr
    have hperm : cfg.fringe.Perm (s :: rest) := popMax_perm _ _ _ hpop
    have hM : cfgMeasure D cfg = muMeasure D s + (rest.map (muMeasure D)).sum := by
      rw [cfgMeasure, (hperm.map (muMeasure D)).sum_eq]
      simp
    cases hend : s.latest.isEnd with
    | true =>
      rw [searchStep_pop_end D cfg s rest hpop hend] at h
      exact absurd h (by simp)
    | false =>
      by_cases hdepth : s.history.length < D
      · rw [searchStep_pop_expand D cfg s rest hpop hend hdepth] at h
        injection h with h2
        subst h2
        have hnu : nuDepth s ≤ D := by
          have hnu1 : nuDepth s ≤ s.history.length + 1 := by
            cases hidx : s.latest_move_index <;> simp [nuDepth, hidx]
          omega
        have hmus : muMeasure D s =
            1 + (s.latest.width * s.latest.height) *
              treeB (s.latest.width * s.latest.height) (D - nuDepth s) := by
          rw [muMeasure, Nat.succ_sub hnu]
          rfl
        have hchild : ∀ v ∈ ((s.moves.filter
            (fun ns => !containsBoard (insertBoard cfg.explored s.latest) ns.latest)).map
              (muMeasure D)),
            v ≤ treeB (s.latest.width * s.latest.height) (D - nuDepth s) := by
          intro v hv
          rw [List.mem_map] at hv
          obtain ⟨c, hcmem, rfl⟩ := hv
          have hc2 : c ∈ s.moves := (List.mem_filter.1 hcmem).1
          obtain ⟨hnuc, hw, hh⟩ := searchState_moves_mem s c hc2
          rw [muMeasure, hnuc, hw, hh]
          have he2 : D + 1 - (nuDepth s + 1) = D - nuDepth s := by omega
          rw [he2]
        have hlen : ((s.moves.filter
            (fun ns => !containsBoard (insertBoard cfg.explored s.latest) ns.latest))).length ≤
            s.latest.width * s.latest.height :=
          le_trans (List.length_filter_le _ _)
            (by rw [searchState_moves_length]; exact moves_length_le s.latest)
        have hpush := List.sum_le_card_nsmul _ _ hchild
        simp only [List.length_map, smul_eq_mul] at hpush
        rw [cfgMeasure]
        simp only [List.map_append, List.sum_append]
        rw [hM, hmus]
        have hmul : ((s.moves.filter
            (fun ns => !containsBoard (insertBoard cfg.explored s.latest) ns.latest))).length *
            treeB (s.latest.width * s.latest.height) (D - nuDepth s) ≤
            (s.latest.width * s.latest.height) *
            treeB (s.latest.width * s.latest.height) (D - nuDepth s) :=
          Nat.mul_le_mul_right _ hlen
        omega
      · rw [searchStep_pop_drop D cfg s rest hpop hend hdepth] at h
        injection h with h2
        subst h2
        have hpos := treeB_pos (s.latest.width * s.latest.height) (D + 1 - nuDepth s)
        have hmu1 : 1 ≤ muMeasure D s := by
          rw [muMeasure]
          exact hpos
        rw [cfgMeasure]
        simp only []
        rw [hM]
        omega

theorem aStarLoop_succ (D fuel : Nat) (cfg : SearchCfg) :
    aStarLoop D (fuel + 1) cfg =
      match searchStep D cfg with
      | Sum.inl r => some r
      | Sum.inr cfg2 => aStarLoop D fuel cfg2 := rfl

theorem aStarLoop_completes (D : Nat) : ∀ (fuel : Nat) (cfg : SearchCfg),
    cfgMeasure D cfg < fuel → (aStarLoop D fuel cfg).isSome = true := by
  intro fuel
  induction fuel with
  | zero =>
    intro cfg h
    omega
  | succ n ih =>
    intro cfg h
    rw [aStarLoop_succ]
    cases hstep : searchStep D cfg with
    | inl r => simp
    | inr cfg2 =>
      simp only []
      have hdec := step_measure D cfg cfg2 hstep
      exact ih cfg2 (by omega)

theorem aStarLoop_mono (D : Nat) : ∀ (f1 : Nat) (cfg : SearchCfg)
    (r : Option SearchState × List Board) (f2 : Nat),
    aStarLoop D f1 cfg = some r → f1 ≤ f2 → aStarLoop D f2 cfg = some r := by
  intro f1
  induction f1 with
  | zero =>
    intro cfg r f2 h
    simp [aStarLoop] at h
  | succ n ih =>
    intro cfg r f2 h hle
    obtain ⟨m, rfl⟩ : ∃ m, f2 = m + 1 := ⟨f2 - 1, by omega⟩
    rw [aStarLoop_succ] at h ⊢
    cases hstep : searchStep D cfg with
    | inl r2 =>
      rw [hstep] at h
      exact h
    | inr cfg2 =>
      rw [hstep] at h
      exact ih cfg2 r m h (by omega)

/-- Claim C7: for every initial board and every depth bound, the search
loop reaches a result (a solved state or frontier exhaustion) within the
computable fuel bound baked into `a_star`: the depth-bounded search tree
is finite, so the expansion loop always terminates. -/
theorem c7_search_terminates (b : Board) (D : Nat) :
    ∃ r, a_star b D = some r := by
  have hM : cfgMeasure D (initCfg b) <
      treeB (b.width * b.height) (D + 1) + 1 := by
    rw [cfgMeasure]
    simp [initCfg, muMeasure, nuDepth, SearchState.ofBoard]
  have h := aStarLoop_completes D (treeB (b.width * b.height) (D + 1) + 1)
    (initCfg b) hM
  rw [a_star]
  exact Option.isSome_iff_exists.1 h

/-- The configuration after the first iteration of `a_star` on
`board11` (any depth bound at least 1): the root value is in the
explored set and its single successor is on the fringe. -/
def cfg1 : SearchCfg := { explored := [board11], fringe := [c1solved] }

theorem searchStep_board11_expand (d : Nat) (hd : 1 ≤ d) :
    searchStep d (initCfg board11) = Sum.inr cfg1 := by
  have hdepth : (SearchState.ofBoard board11).history.length < d := hd
  rw [searchStep_pop_expand d (initCfg board11) (SearchState.ofBoard board11) []
    (by decide) (by decide) hdepth]
  decide

theorem searchStep_cfg1_solved (d : Nat) :
    searchStep d cfg1 = Sum.inl (some c1solved, [board11]) := by
  rw [searchStep_pop_end d cfg1 c1solved [] (by decide) (by decide)]
  rfl

/-- Claim C1: on the 1-by-1 board with its single cell on, `a_star` with
any depth bound at least 1 returns a solved outcome with explored count 1
(the explored set is exactly the initial board) — but the returned
search-state's history has length 0, not 1: the final move index is only
stored in `latest_move_index` and is never appended to `history`. -/
theorem c1_search_eval (d : Nat) (hd : 1 ≤ d) :
    a_star board11 d = some (some c1solved, [board11]) ∧
    c1solved.history.length = 0 ∧
    c1solved.latest.isEnd = true ∧
    c1solved.latest_move_index = some 0 := by
  refine ⟨?_, by decide, by decide, by decide⟩
  have h2 : aStarLoop d 2 (initCfg board11) = some (some c1solved, [board11]) := by
    have e2 : (2 : Nat) = 1 + 1 := rfl
    rw [e2, aStarLoop_succ, searchStep_board11_expand d hd]
    show aStarLoop d 1 cfg1 = some (some c1solved, [board11])
    have e1 : (1 : Nat) = 0 + 1 := rfl
    rw [e1, aStarLoop_succ, searchStep_cfg1_solved d]
  have hb : 2 ≤ treeB (board11.width * board11.height) (d + 1) + 1 := by
    have hp := treeB_pos (board11.width * board11.height) (d + 1)
    omega
  rw [a_star]
  exact aStarLoop_mono d 2 (initCfg board11) _ _ h2 hb

theorem c1_search_eval_witness :
    a_star board11 1 = some (some c1solved, [board11]) ∧
    c1solved.history.length = 0 ∧
    c1solved.latest.isEnd = true ∧
    c1solved.latest_move_index = some 0 :=
  c1_search_eval 1 (by decide)

/-- Claim C3: the solution `a_star` returns for the 1-by-1 board with
its cell on has an empty history, so replaying the history against the
initial board yields the initial board itself, whose rows differ from
the solution's final puzzle value — replay does not reproduce the final
board, because the last move lives only in `latest_move_index`. -/
theorem c3_replay_mismatch :
    a_star board11 1 = some (some c1solved, [board11]) ∧
    replay board11 c1solved.history = some board11 ∧
    c1solved.latest.rows ≠ board11.rows := by
  decide

/-- Claim C5 (counterexample): with depth bound 0, the root of the
search on `board11` is popped from the frontier and found non-terminal,
yet it is never inserted into the visited set (the step drops it and the
whole run ends with an empty explored set): insertion is not "exactly
when popped and found non-terminal". -/
theorem c5_counterexample :
    popMax (initCfg board11).fringe = some (SearchState.ofBoard board11, []) ∧
    (SearchState.ofBoard board11).latest.isEnd = false ∧
    searchStep 0 (initCfg board11) = Sum.inr { explored := [], fringe := [] } ∧
    a_star board11 0 = some (none, []) := by
  decide

/-- Claim C5 (amended): a puzzle value is inserted into the visited set
exactly when it is popped from the frontier, found non-terminal, and its
history length is below the depth bound (a terminal or depth-capped pop
inserts nothing); newly enqueued states always have values outside the
just-updated visited set; and the visited set never holds two boards
with the same rows, so a value is inserted at most once. -/
theorem c5_visited_invariants :
    (∀ (D : Nat) (cfg : SearchCfg) (r : Option SearchState × List Board),
      searchStep D cfg = Sum.inl r → r.2 = cfg.explored) ∧
    (∀ (D : Nat) (cfg cfg2 : SearchCfg) (s : SearchState) (rest : List SearchState),
      popMax cfg.fringe = some (s, rest) → searchStep D cfg = Sum.inr cfg2 →
      (s.history.length < D →
        cfg2.explored = insertBoard cfg.explored s.latest ∧
        ∀ t ∈ cfg2.fringe, t ∈ rest ∨ containsBoard cfg2.explored t.latest = false) ∧
      (¬ s.history.length < D →
        cfg2 = { explored := cfg.explored, fringe := rest })) ∧
    (∀ (l : List Board) (bd : Board),
      l.Pairwise (fun u v => u.rows ≠ v.rows) →
      (insertBoard l bd).Pairwise (fun u v => u.rows ≠ v.rows)) := by
  refine ⟨?_, ?_, ?_⟩
  · intro D cfg r h
    cases hpop : popMax cfg.fringe with
    | none =>
      rw [searchStep_pop_none D cfg hpop] at h
      injection h with h2
      rw [← h2]
    | some pr =>
      obtain ⟨s, rest⟩ := pr
      cases hend : s.latest.isEnd with
      | true =>
        rw [searchStep_pop_end D cfg s rest hpop hend] at h
        injection h with h2
        rw [← h2]
      | false =>
        by_cases hdepth : s.history.length < D
        · rw [searchStep_pop_expand D cfg s rest hpop hend hdepth] at h
          exact absurd h (by simp)
        · rw [searchStep_pop_drop D cfg s rest hpop hend hdepth] at h
          exact absurd h (by simp)
  · intro D cfg cfg2 s rest hpop h
    cases hend : s.latest.isEnd with
    | true =>
      rw [searchStep_pop_end D cfg s rest hpop hend] at h
      exact absurd h (by simp)
    | false =>
      by_cases hdepth : s.history.length < D
      · rw [searchStep_pop_expand D cfg s rest hpop hend hdepth] at h
        injection h with h2
        subst h2
        refine ⟨fun _ => ⟨rfl, ?_⟩, fun hnd => absurd hdepth hnd⟩
        intro t ht
        rcases List.mem_append.1 ht with htp | htr
        · right
          have hfil := (List.mem_filter.1 htp).2
          simpa using hfil
        · left
          exact htr
      · rw [searchStep_pop_drop D cfg s rest hpop hend hdepth] at h
        injection h with h2
        subst h2
        exact ⟨fun hd2 => absurd hd2 hdepth, fun _ => rfl⟩
  · intro l bd hl
    rw [insertBoard]
    by_cases hc : containsBoard l bd = true
    · rw [if_pos hc]
      exact hl
    · rw [if_neg hc]
      refine List.Pairwise.cons ?_ hl
      intro v hv heq
      apply hc
      rw [containsBoard, List.any_eq_true]
      exact ⟨v, hv, by rw [heq, beq_self_eq_true]⟩

theorem c5_visited_invariants_witness :
    cfg1.explored = insertBoard (initCfg board11).explored
      (SearchState.ofBoard board11).latest ∧
    ([board11] : List Board).Pairwise (fun u v => u.rows ≠ v.rows) :=
  ⟨((c5_visited_invariants.2.1 1 (initCfg board11) cfg1 (SearchState.ofBoard board11) []
      (by decide) (searchStep_board11_expand 1 (by decide))).1 (by decide)).1,
   c5_visited_invariants.2.2 [] board11 List.Pairwise.nil⟩
